import Mathlib

/-!
Verification of the keyed-arena component (`src/keyed_set.rs`) of the
`blobs` repository.

The Rust source defines a `Key<T>(usize, PhantomData<*const T>)` handle
type and a `KeyedSet<T> { map: HashMap<Key<T>, T>, next: Key<T> }` arena.
We embed them shallowly:

* `Key T` is a structure with a single `Nat` field `identity`, mirroring
  the `usize` payload; the phantom marker becomes the type parameter `T`.
  The `usize` counter is modelled as an unbounded `Nat`: the source's only
  arithmetic on it is `self.next.0 += 1`, and counter exhaustion is the
  documented out-of-scope edge case (a debug build aborts rather than
  wrapping).
* The `HashMap<Key<T>, T>` is modelled as an association list
  `List (Key T × T)`; `HashMap`'s contract (at most one entry per key)
  is a proved invariant (`WF`) of every reachable arena state, and the
  backing operations (`mapInsert`, `mapGet`, `mapRemove`) implement the
  `HashMap::insert` / `get` / `remove` semantics (insert replaces an
  existing entry for the same key).
* Rust's `Option` maps to Lean's `Option`; `iter` yields the entries of
  the backing table in the model's (unspecified) order, mirroring
  `HashMap::iter`.
* A mutable borrow cannot be embedded directly; `get_mut`'s observable
  behaviour (which entry it exposes) is modelled by the lookup it
  performs, identical to `get` in the source (`map.get_mut(&key)`).

Temporal claims quantify over traces of mutating operations (`Op`),
executed from the freshly created arena by `runFrom`, which also records
every key handed out by `insert`.
-/

/-- Embedding of `Key<T>` from `src/keyed_set.rs`: a `usize` identity plus
a phantom type marker (the parameter `T`). -/
structure Key (T : Type) where
  identity : Nat

/-- `PartialEq`/`Eq` for `Key<T>` compare only `self.0`; since `Key` has a
single field, structural equality in Lean coincides with that. -/
instance {T : Type} : DecidableEq (Key T) :=
  fun a b =>
    if h : a.identity = b.identity then
      isTrue (by cases a; cases b; cases h; rfl)
    else
      isFalse (by intro hc; cases hc; exact h rfl)

/-- Embedding of the `Ord` impl for `Key<T>`: `self.0.cmp(&other.0)`. -/
def Key.cmp {T : Type} (a b : Key T) : Ordering :=
  compare a.identity b.identity

/-- Embedding of the `Hash` impl for `Key<T>`: `self.0.hash(state)`.
The hasher is abstracted as a state-transformer on the identity; the
impl feeds exactly the `identity` field to it. -/
def Key.hashWith {T : Type} {S : Type} (f : Nat → S → S) (k : Key T) (st : S) : S :=
  f k.identity st

/-- `HashMap::get` on the association-list model: the value stored at `k`,
if any. -/
def mapGet {T : Type} (k : Key T) : List (Key T × T) → Option T
  | [] => none
  | (k', v) :: rest => if k = k' then some v else mapGet k rest

/-- `HashMap::insert` on the association-list model: replace the entry at
`k` if present, otherwise append a new entry. -/
def mapInsert {T : Type} (k : Key T) (v : T) : List (Key T × T) → List (Key T × T)
  | [] => [(k, v)]
  | (k', v') :: rest =>
    if k = k' then (k, v) :: rest else (k', v') :: mapInsert k v rest

/-- `HashMap::remove` on the association-list model: drop the entry at `k`
(if any) and return its value. -/
def mapRemove {T : Type} (k : Key T) : List (Key T × T) → Option T × List (Key T × T)
  | [] => (none, [])
  | (k', v') :: rest =>
    if k = k' then (some v', rest)
    else
      let r := mapRemove k rest
      (r.1, (k', v') :: r.2)

/-- Embedding of `KeyedSet<T>`: the backing map and the `next` key the
counter will mint. -/
structure KeyedSet (T : Type) where
  map : List (Key T × T)
  next : Key T

namespace KeyedSet

/-- `KeyedSet::new`: empty map, counter at 0. -/
def new {T : Type} : KeyedSet T :=
  { map := [], next := ⟨0⟩ }

/-- `KeyedSet::generate_key`: return the current `next` key and advance
the counter by one. -/
def generate_key {T : Type} (s : KeyedSet T) : Key T × KeyedSet T :=
  (s.next, { s with next := ⟨s.next.identity + 1⟩ })

/-- `KeyedSet::insert`: mint a key with `generate_key`, store the value
under it, return the key. -/
def insert {T : Type} (s : KeyedSet T) (v : T) : Key T × KeyedSet T :=
  let p := s.generate_key
  (p.1, { p.2 with map := mapInsert p.1 v p.2.map })

/-- `KeyedSet::get`: `self.map.get(&key)`. -/
def get {T : Type} (s : KeyedSet T) (k : Key T) : Option T :=
  mapGet k s.map

/-- `KeyedSet::get_mut`: `self.map.get_mut(&key)`; the observable lookup
is the same as `get`. -/
def get_mut {T : Type} (s : KeyedSet T) (k : Key T) : Option T :=
  mapGet k s.map

/-- `KeyedSet::remove`: `self.map.remove(&key)`, returning the detached
value and the updated arena. -/
def remove {T : Type} (s : KeyedSet T) (k : Key T) : Option T × KeyedSet T :=
  let r := mapRemove k s.map
  (r.1, { s with map := r.2 })

/-- `KeyedSet::iter` (via `IntoIterator for &KeyedSet<T>`): the sequence
of live `(key, value)` pairs, i.e. `self.map.iter()`. -/
def iter {T : Type} (s : KeyedSet T) : List (Key T × T) :=
  s.map

/-- `KeyedSet::len`: `self.map.len()`. -/
def len {T : Type} (s : KeyedSet T) : Nat :=
  s.map.length

end KeyedSet

/-- A mutating operation on the arena: the two state transitions the API
offers (`get`/`get_mut` do not change state). -/
inductive Op (T : Type) where
  | ins (v : T)
  | rem (k : Key T)

/-- Run a trace of operations from a state; also return the list of keys
minted by the `insert`s of the trace, in order of issue. -/
def runFrom {T : Type} : List (Op T) → KeyedSet T → KeyedSet T × List (Key T)
  | [], s => (s, [])
  | Op.ins v :: ops, s =>
    let p := s.insert v
    let r := runFrom ops p.2
    (r.1, p.1 :: r.2)
  | Op.rem k :: ops, s => runFrom ops (s.remove k).2

/-- Well-formedness of an arena state: every stored key is below the
counter, and stored keys are pairwise distinct (the `HashMap` contract). -/
def WF {T : Type} (s : KeyedSet T) : Prop :=
  (∀ p ∈ s.map, p.1.identity < s.next.identity) ∧
    (s.map.map Prod.fst).Nodup

/-- Looking up the key just inserted finds the inserted value. -/
theorem mapGet_mapInsert_self {T : Type} (k : Key T) (v : T) (l : List (Key T × T)) :
    mapGet k (mapInsert k v l) = some v := by
  induction l with
  | nil => simp [mapInsert, mapGet]
  | cons p rest ih =>
    by_cases h : k = p.1
    · simp [mapInsert, mapGet, h]
    · simp [mapInsert, mapGet, h, ih]

/-- Inserting under a different key does not change a lookup. -/
theorem mapGet_mapInsert_ne {T : Type} {k k' : Key T} (h : k ≠ k') (v : T)
    (l : List (Key T × T)) : mapGet k (mapInsert k' v l) = mapGet k l := by
  induction l with
  | nil => simp [mapInsert, mapGet, h]
  | cons p rest ih =>
    by_cases h' : k' = p.1
    · subst h'
      simp [mapInsert, mapGet, h]
    · by_cases h'' : k = p.1 <;> simp [mapInsert, mapGet, h', h'', ih]

/-- A lookup succeeds exactly when the key occurs in the map. -/
theorem mapGet_isSome_iff {T : Type} (k : Key T) (l : List (Key T × T)) :
    (mapGet k l).isSome = true ↔ k ∈ l.map Prod.fst := by
  induction l with
  | nil => simp [mapGet]
  | cons p rest ih =>
    by_cases h : k = p.1 <;> simp [mapGet, h, ih]

/-- A lookup yields `none` exactly when the key does not occur. -/
theorem mapGet_eq_none_iff {T : Type} (k : Key T) (l : List (Key T × T)) :
    mapGet k l = none ↔ k ∉ l.map Prod.fst := by
  rw [← mapGet_isSome_iff]
  cases mapGet k l <;> simp

/-- Under distinct keys, membership of a pair coincides with lookup. -/
theorem mapGet_eq_some_iff_mem {T : Type} {l : List (Key T × T)}
    (hnd : (l.map Prod.fst).Nodup) (k : Key T) (v : T) :
    mapGet k l = some v ↔ (k, v) ∈ l := by
  induction l with
  | nil => simp [mapGet]
  | cons p rest ih =>
    obtain ⟨k1, v1⟩ := p
    simp only [List.map_cons, List.nodup_cons] at hnd
    rw [List.mem_cons]
    by_cases h : k = k1
    · subst h
      constructor
      · intro hv
        have hv' : v1 = v := by simpa [mapGet] using hv
        exact Or.inl (by rw [hv'])
      · intro hv
        rcases hv with hv | hv
        · rw [Prod.mk.injEq] at hv
          simp [mapGet, hv.2]
        · exact absurd (List.mem_map_of_mem Prod.fst hv) hnd.1
    · have hp : ¬ ((k, v) = (k1, v1)) := by
        intro hc
        rw [Prod.mk.injEq] at hc
        exact h hc.1
      simp [mapGet, h, ih hnd.2, hp]

/-- Removing a key preserves the absence of another (or the same) key. -/
theorem mapGet_mapRemove_of_none {T : Type} (k k' : Key T) {l : List (Key T × T)}
    (h : mapGet k l = none) : mapGet k (mapRemove k' l).2 = none := by
  induction l with
  | nil => simpa [mapRemove] using h
  | cons p rest ih =>
    by_cases hk : k = p.1
    · simp [mapGet, hk] at h
    · simp only [mapGet, if_neg hk] at h
      by_cases hk' : k' = p.1
      · simpa [mapRemove, hk'] using h
      · simp [mapRemove, hk', mapGet, hk, ih h]

/-- Removing an absent key leaves the map unchanged. -/
theorem mapRemove_of_none {T : Type} {k : Key T} {l : List (Key T × T)}
    (h : mapGet k l = none) : mapRemove k l = (none, l) := by
  induction l with
  | nil => simp [mapRemove]
  | cons p rest ih =>
    by_cases hk : k = p.1
    · simp [mapGet, hk] at h
    · simp only [mapGet, if_neg hk] at h
      simp [mapRemove, hk, ih h]

/-- Removing a present key returns the looked-up value and drops one
entry. -/
theorem mapRemove_of_some {T : Type} {k : Key T} {v : T} {l : List (Key T × T)}
    (h : mapGet k l = some v) :
    (mapRemove k l).1 = some v ∧ (mapRemove k l).2.length + 1 = l.length := by
  induction l with
  | nil => simp [mapGet] at h
  | cons p rest ih =>
    by_cases hk : k = p.1
    · simp only [mapGet, if_pos hk] at h
      simp [mapRemove, hk, h]
    · simp only [mapGet, if_neg hk] at h
      have := ih h
      simp [mapRemove, hk, this.1, ← this.2]

/-- The keys surviving a removal are among the original keys. -/
theorem mapRemove_keys_sublist {T : Type} (k : Key T) (l : List (Key T × T)) :
    ((mapRemove k l).2.map Prod.fst).Sublist (l.map Prod.fst) := by
  induction l with
  | nil => simp [mapRemove]
  | cons p rest ih =>
    by_cases hk : k = p.1
    · simp only [mapRemove, if_pos hk]
      exact (List.sublist_cons_self _ _)
    · simp only [mapRemove, if_neg hk, List.map_cons]
      exact ih.cons₂ _

/-- After removing `k`, looking up `k` yields `none`, provided keys were
distinct. -/
theorem mapGet_mapRemove_self {T : Type} (k : Key T) {l : List (Key T × T)}
    (hnd : (l.map Prod.fst).Nodup) : mapGet k (mapRemove k l).2 = none := by
  induction l with
  | nil => simp [mapRemove, mapGet]
  | cons p rest ih =>
    simp only [List.map_cons, List.nodup_cons] at hnd
    by_cases hk : k = p.1
    · subst hk
      simp only [mapRemove, if_pos rfl]
      exact (mapGet_eq_none_iff _ _).2 hnd.1
    · simp [mapRemove, hk, mapGet, ih hnd.2]

/-- Every entry surviving a removal was already present. -/
theorem mapRemove_mem {T : Type} (k : Key T) {p : Key T × T}
    {l : List (Key T × T)} (h : p ∈ (mapRemove k l).2) : p ∈ l := by
  induction l with
  | nil => simp [mapRemove] at h
  | cons q rest ih =>
    by_cases hk : k = q.1
    · simp only [mapRemove, if_pos hk] at h
      exact List.mem_cons_of_mem _ h
    · simp only [mapRemove, if_neg hk, List.mem_cons] at h
      rcases h with h | h

      · exact h ▸ List.mem_cons_self _ _
      · exact List.mem_cons_of_mem _ (ih h)

/-- Inserting a fresh key appends it to the key list. -/
theorem mapInsert_keys_of_absent {T : Type} {k : Key T} (v : T)
    {l : List (Key T × T)} (h : k ∉ l.map Prod.fst) :
    (mapInsert k v l).map Prod.fst = l.map Prod.fst ++ [k] := by
  induction l with
  | nil => simp [mapInsert]
  | cons p rest ih =>
    simp only [List.map_cons, List.mem_cons, not_or] at h
    simp [mapInsert, h.1, ih h.2]

/-- The number of `insert` operations in a trace. -/
def insCount {T : Type} : List (Op T) → Nat
  | [] => 0
  | Op.ins _ :: ops => insCount ops + 1
  | Op.rem _ :: ops => insCount ops

/-- The fresh arena is well-formed. -/
theorem WF_new {T : Type} : WF (KeyedSet.new : KeyedSet T) := by
  constructor
  · intro p hp
    simp [KeyedSet.new] at hp
  · simp [KeyedSet.new]

/-- `insert` preserves well-formedness. -/
theorem WF_insert {T : Type} {s : KeyedSet T} (h : WF s) (v : T) :
    WF (s.insert v).2 := by
  obtain ⟨hb, hnd⟩ := h
  have habs : s.next ∉ s.map.map Prod.fst := by
    intro hmem
    rcases List.mem_map.1 hmem with ⟨p, hp, hfst⟩
    have := hb p hp
    rw [hfst] at this
    exact Nat.lt_irrefl _ this
  constructor
  · intro p hp
    simp only [KeyedSet.insert, KeyedSet.generate_key] at hp ⊢
    have hkeys : p.1 ∈ s.map.map Prod.fst ++ [s.next] := by
      have : p.1 ∈ (mapInsert s.next v s.map).map Prod.fst :=
        List.mem_map_of_mem Prod.fst hp
      rwa [mapInsert_keys_of_absent v habs] at this
    rcases List.mem_append.1 hkeys with hk | hk
    · rcases List.mem_map.1 hk with ⟨q, hq, hfst⟩
      have := hb q hq
      rw [hfst] at this
      exact Nat.lt_trans this (Nat.lt_succ_self _)
    · simp only [List.mem_singleton] at hk
      rw [hk]
      exact Nat.lt_succ_self _
  · simp only [KeyedSet.insert, KeyedSet.generate_key]
    rw [mapInsert_keys_of_absent v habs]
    exact List.Nodup.append hnd (List.nodup_singleton _)
      (by
        intro a ha hb'
        simp only [List.mem_singleton] at hb'
        exact habs (hb' ▸ ha))

/-- `remove` preserves well-formedness. -/
theorem WF_remove {T : Type} {s : KeyedSet T} (h : WF s) (k : Key T) :
    WF (s.remove k).2 := by
  obtain ⟨hb, hnd⟩ := h
  constructor
  · intro p hp
    simp only [KeyedSet.remove] at hp ⊢
    exact hb p (mapRemove_mem k hp)
  · simp only [KeyedSet.remove]
    exact (mapRemove_keys_sublist k s.map).nodup hnd

/-- Running a trace preserves well-formedness. -/
theorem runFrom_WF {T : Type} (ops : List (Op T)) {s : KeyedSet T} (h : WF s) :
    WF (runFrom ops s).1 := by
  induction ops generalizing s with
  | nil => exact h
  | cons op ops ih =>
    cases op with
    | ins v => exact ih (WF_insert h v)
    | rem k => exact ih (WF_remove h k)

/-- Running a trace advances the counter by exactly the number of
inserts in the trace. -/
theorem runFrom_next {T : Type} (ops : List (Op T)) (s : KeyedSet T) :
    (runFrom ops s).1.next.identity = s.next.identity + insCount ops := by
  induction ops generalizing s with
  | nil => simp [runFrom, insCount]
  | cons op ops ih =>
    cases op with
    | ins v =>
      simp only [runFrom, insCount]
      rw [ih]
      simp only [KeyedSet.insert, KeyedSet.generate_key]
      omega
    | rem k =>
      simp only [runFrom, insCount]
      rw [ih]
      simp [KeyedSet.remove]

/-- The identities issued by a trace are the consecutive block starting
at the current counter, in order. -/
theorem runFrom_issued {T : Type} (ops : List (Op T)) (s : KeyedSet T) :
    (runFrom ops s).2.map Key.identity
      = List.range' s.next.identity (insCount ops) := by
  induction ops generalizing s with
  | nil => simp [runFrom, insCount]
  | cons op ops ih =>
    cases op with
    | ins v =>
      simp only [runFrom, insCount, List.map_cons]
      rw [List.range'_succ, ih]
      simp [KeyedSet.insert, KeyedSet.generate_key]
    | rem k =>
      simp only [runFrom, insCount]
      rw [ih]
      simp [KeyedSet.remove]

/-- A key that is absent and below the counter stays absent along any
trace. -/
theorem runFrom_dead {T : Type} (ops : List (Op T)) {s : KeyedSet T}
    {h : Key T} (hd : s.get h = none) (hb : h.identity < s.next.identity) :
    (runFrom ops s).1.get h = none := by
  induction ops generalizing s with
  | nil => exact hd
  | cons op ops ih =>
    cases op with
    | ins v =>
      refine ih ?_ ?_
      · have hne : h ≠ s.next := by
          intro hc
          rw [hc] at hb
          exact Nat.lt_irrefl _ hb
        simp only [KeyedSet.insert, KeyedSet.generate_key, KeyedSet.get]
        rw [mapGet_mapInsert_ne hne]
        exact hd
      · simp only [KeyedSet.insert, KeyedSet.generate_key]
        exact Nat.lt_trans hb (Nat.lt_succ_self _)
    | rem k =>
      refine ih ?_ ?_
      · simp only [KeyedSet.remove, KeyedSet.get]
        exact mapGet_mapRemove_of_none h k hd
      · simpa [KeyedSet.remove] using hb

/-- The value a removal returns is exactly the value a lookup finds. -/
theorem mapRemove_fst_eq {T : Type} (k : Key T) (l : List (Key T × T)) :
    (mapRemove k l).1 = mapGet k l := by
  induction l with
  | nil => simp [mapRemove, mapGet]
  | cons p rest ih =>
    by_cases hk : k = p.1 <;> simp [mapRemove, mapGet, hk, ih]

/-- A trace made only of inserts has one insert per value. -/
theorem insCount_map_ins {T : Type} (vs : List T) :
    insCount (vs.map Op.ins) = vs.length := by
  induction vs with
  | nil => simp [insCount]
  | cons v vs ih => simp [insCount, ih]

/-- C1: Round-trip — for every value `v` and every arena state, inserting
`v` and then calling `get` with the returned handle yields `some v`. -/
theorem round_trip {T : Type} (s : KeyedSet T) (v : T) :
    (s.insert v).2.get (s.insert v).1 = some v := by
  simp only [KeyedSet.insert, KeyedSet.generate_key, KeyedSet.get]
  exact mapGet_mapInsert_self _ _ _

/-- C3: Counter discipline — the counter starts at 0, advances by exactly
one on every insert, is untouched by removal, and along any trace from a
new arena the issued identities are precisely `0, 1, …, insCount - 1` in
strictly increasing order (hence never reissued). -/
theorem counter_discipline {T : Type} :
    (KeyedSet.new : KeyedSet T).next.identity = 0
    ∧ (∀ (s : KeyedSet T) (v : T),
        ((s.insert v).2).next.identity = s.next.identity + 1)
    ∧ (∀ (s : KeyedSet T) (k : Key T), ((s.remove k).2).next = s.next)
    ∧ (∀ ops : List (Op T),
        (runFrom ops KeyedSet.new).2.map Key.identity
          = List.range (insCount ops))
    ∧ (∀ ops : List (Op T),
        ((runFrom ops KeyedSet.new).2.map Key.identity).Pairwise (· < ·)) := by
  refine ⟨rfl, ?_, ?_, ?_, ?_⟩
  · intro s v
    simp [KeyedSet.insert, KeyedSet.generate_key]
  · intro s k
    simp [KeyedSet.remove]
  · intro ops
    rw [runFrom_issued, List.range_eq_range']
    rfl
  · intro ops
    rw [runFrom_issued]
    exact List.pairwise_lt_range' _ _

/-- C4: Uniqueness — performing `n` inserts on one arena (from any state)
yields `n` pairwise-distinct handles. -/
theorem uniqueness {T : Type} (s : KeyedSet T) (vs : List T) :
    (runFrom (vs.map Op.ins) s).2.length = vs.length
    ∧ (runFrom (vs.map Op.ins) s).2.Nodup := by
  constructor
  · have h := runFrom_issued (vs.map Op.ins) s
    have := congrArg List.length h
    simpa [insCount_map_ins] using this
  · have h := runFrom_issued (vs.map Op.ins) s
    have hnd : ((runFrom (vs.map Op.ins) s).2.map Key.identity).Nodup := by
      rw [h]
      exact List.nodup_range' _ _
    exact hnd.of_map _

/-- C2: Removal finality — once `remove h` has succeeded on a reachable
arena, `get h` yields `none` after any further trace of inserts and
removes. -/
theorem removal_finality {T : Type} (ops0 : List (Op T)) (h : Key T) (v : T)
    (hrem : (((runFrom ops0 KeyedSet.new).1).remove h).1 = some v)
    (ops1 : List (Op T)) :
    (runFrom ops1 (((runFrom ops0 KeyedSet.new).1).remove h).2).1.get h
      = none := by
  have hwf : WF (runFrom ops0 (KeyedSet.new : KeyedSet T)).1 :=
    runFrom_WF ops0 WF_new
  set s := (runFrom ops0 (KeyedSet.new : KeyedSet T)).1 with hs
  have hget : mapGet h s.map = some v := by
    rw [← mapRemove_fst_eq]
    exact hrem
  have hmem : h ∈ s.map.map Prod.fst := by
    rw [← mapGet_isSome_iff, hget]
    rfl
  have hb : h.identity < s.next.identity := by
    rcases List.mem_map.1 hmem with ⟨p, hp, hfst⟩
    have := hwf.1 p hp
    rwa [hfst] at this
  refine runFrom_dead ops1 ?_ ?_
  · simp only [KeyedSet.remove, KeyedSet.get]
    exact mapGet_mapRemove_self h hwf.2
  · simpa [KeyedSet.remove] using hb

/-- Witness for C2 at a concrete trace: insert 10, remove its handle,
insert 11; the removed handle still reads as `none`. -/
theorem removal_finality_witness :
    ((((runFrom [Op.ins 10] KeyedSet.new).1).remove ⟨0⟩).1 = some 10)
    ∧ (runFrom [Op.ins 11]
        ((((runFrom [Op.ins 10] KeyedSet.new).1).remove ⟨0⟩)).2).1.get ⟨0⟩
        = none :=
  ⟨by decide, removal_finality [Op.ins 10] ⟨0⟩ 10 (by decide) [Op.ins 11]⟩

/-- C5: Unknown-handle totality — for a handle never issued along the
trace, `get`, `get_mut`, and `remove` all yield the empty result and
`remove` leaves the arena unchanged (all four operations are total
functions of the model, so no input handle aborts). -/
theorem unknown_handle_total {T : Type} (ops : List (Op T)) (k : Key T)
    (hk : k ∉ (runFrom ops KeyedSet.new).2) :
    (runFrom ops KeyedSet.new).1.get k = none
    ∧ (runFrom ops KeyedSet.new).1.get_mut k = none
    ∧ ((runFrom ops KeyedSet.new).1.remove k).1 = none
    ∧ ((runFrom ops KeyedSet.new).1.remove k).2
        = (runFrom ops KeyedSet.new).1 := by
  have hwf : WF (runFrom ops (KeyedSet.new : KeyedSet T)).1 :=
    runFrom_WF ops WF_new
  set s := (runFrom ops (KeyedSet.new : KeyedSet T)).1 with hs
  have hidn : k.identity ∉ (runFrom ops (KeyedSet.new : KeyedSet T)).2.map
      Key.identity := by
    intro hc
    rcases List.mem_map.1 hc with ⟨k', hk', hid⟩
    have : k' = k := by
      cases k'
      cases k
      cases hid
      rfl
    exact hk (this ▸ hk')
  have hge : (KeyedSet.new : KeyedSet T).next.identity + insCount ops
      ≤ k.identity := by
    rw [runFrom_issued] at hidn
    by_contra hlt
    exact hidn (List.mem_range'_1.2 ⟨Nat.zero_le _, Nat.lt_of_not_le hlt⟩)
  have hbound : s.next.identity ≤ k.identity := by
    rw [hs, runFrom_next]
    exact hge
  have hget : mapGet k s.map = none := by
    rw [mapGet_eq_none_iff]
    intro hmem
    rcases List.mem_map.1 hmem with ⟨p, hp, hfst⟩
    have := hwf.1 p hp
    rw [hfst] at this
    exact Nat.not_le.2 this hbound
  refine ⟨hget, hget, ?_, ?_⟩
  · simp only [KeyedSet.remove]
    rw [mapRemove_fst_eq]
    exact hget
  · simp only [KeyedSet.remove]
    rw [(mapRemove_of_none hget :)]

/-- Witness for C5 at a concrete trace: after one insert, the handle with
identity 5 was never issued and all three lookups come back empty. -/
theorem unknown_handle_total_witness :
    ((⟨5⟩ : Key Nat) ∉ (runFrom [Op.ins 3] KeyedSet.new).2)
    ∧ (runFrom [Op.ins 3] KeyedSet.new).1.get ⟨5⟩ = none
    ∧ (runFrom [Op.ins 3] KeyedSet.new).1.get_mut ⟨5⟩ = none
    ∧ ((runFrom [Op.ins 3] KeyedSet.new).1.remove ⟨5⟩).1 = none
    ∧ ((runFrom [Op.ins 3] KeyedSet.new).1.remove ⟨5⟩).2
        = (runFrom [Op.ins 3] KeyedSet.new).1 := by
  have h := unknown_handle_total [Op.ins 3] (⟨5⟩ : Key Nat) (by decide)
  exact ⟨by decide, h.1, h.2.1, h.2.2.1, h.2.2.2⟩

/-- C6: Size consistency — after any trace of inserts and removes from a
new arena, `len` equals the number of handles at which `get` currently
yields a value. -/
theorem size_consistency {T : Type} (ops : List (Op T)) :
    {k : Key T | ∃ v, (runFrom ops KeyedSet.new).1.get k = some v}.ncard
      = (runFrom ops KeyedSet.new).1.len := by
  have hwf : WF (runFrom ops (KeyedSet.new : KeyedSet T)).1 :=
    runFrom_WF ops WF_new
  set s := (runFrom ops (KeyedSet.new : KeyedSet T)).1 with hs
  have hset : {k : Key T | ∃ v, s.get k = some v}
      = ↑(s.map.map Prod.fst).toFinset := by
    ext k
    simp only [Set.mem_setOf_eq, Finset.coe_sort_coe, Finset.mem_coe,
      List.mem_toFinset]
    rw [← mapGet_isSome_iff, Option.isSome_iff_exists]
    exact Iff.rfl
  rw [hset, Set.ncard_coe_Finset, List.toFinset_card_of_nodup hwf.2]
  simp [KeyedSet.len]

/-- C7: Iteration completeness — one full iteration yields exactly the
pairs `(k, v)` with `get k = some v`, each live key appearing exactly
once. -/
theorem iteration_completeness {T : Type} (ops : List (Op T)) :
    ((runFrom ops KeyedSet.new).1.iter.map Prod.fst).Nodup
    ∧ ∀ (k : Key T) (v : T),
        (k, v) ∈ (runFrom ops KeyedSet.new).1.iter
          ↔ (runFrom ops KeyedSet.new).1.get k = some v := by
  have hwf : WF (runFrom ops (KeyedSet.new : KeyedSet T)).1 :=
    runFrom_WF ops WF_new
  refine ⟨hwf.2, ?_⟩
  intro k v
  exact (mapGet_eq_some_iff_mem hwf.2 k v).symm

/-- C8: Remove contract and atomicity — if `get k` finds a value, `remove
k` returns exactly that value, the size drops by one and the counter is
untouched; if `get k` finds nothing, `remove k` returns `none` and the
whole arena state is unchanged. -/
theorem remove_contract {T : Type} (s : KeyedSet T) (k : Key T) :
    (∀ v : T, s.get k = some v →
        (s.remove k).1 = some v ∧ (s.remove k).2.len + 1 = s.len
          ∧ (s.remove k).2.next = s.next)
    ∧ (s.get k = none → s.remove k = (none, s)) := by
  constructor
  · intro v hv
    have h := mapRemove_of_some (l := s.map) hv
    refine ⟨?_, ?_, rfl⟩
    · simp only [KeyedSet.remove]
      exact h.1
    · simp only [KeyedSet.remove, KeyedSet.len]
      exact h.2
  · intro hv
    simp only [KeyedSet.remove]
    rw [(mapRemove_of_none hv :)]

/-- Witness for C8: removing the only live handle returns the stored
value and shrinks the arena by one; removing a never-issued handle is a
no-op. -/
theorem remove_contract_witness :
    ((((KeyedSet.new.insert (5 : Nat)).2).remove ⟨0⟩).1 = some 5
      ∧ (((KeyedSet.new.insert (5 : Nat)).2).remove ⟨0⟩).2.len + 1
          = ((KeyedSet.new.insert (5 : Nat)).2).len
      ∧ (((KeyedSet.new.insert (5 : Nat)).2).remove ⟨0⟩).2.next
          = ((KeyedSet.new.insert (5 : Nat)).2).next)
    ∧ (KeyedSet.new : KeyedSet Nat).remove ⟨3⟩ = (none, KeyedSet.new) :=
  ⟨(remove_contract ((KeyedSet.new.insert (5 : Nat)).2) ⟨0⟩).1 5 (by decide),
    (remove_contract (KeyedSet.new : KeyedSet Nat) ⟨3⟩).2 (by decide)⟩

/-- C9: Handle identity semantics — two handles of the same element type
are equal iff their identities are equal, and hashing (for any hasher)
and ordering depend on nothing but the identity field. -/
theorem handle_identity {T : Type} (a b : Key T) :
    (a = b ↔ a.identity = b.identity)
    ∧ (a.identity = b.identity →
        (∀ (S : Type) (f : Nat → S → S) (st : S),
            a.hashWith f st = b.hashWith f st)
        ∧ ∀ c : Key T, Key.cmp a c = Key.cmp b c
            ∧ Key.cmp c a = Key.cmp c b) := by
  constructor
  · constructor
    · intro h
      rw [h]
    · intro h
      cases a
      cases b
      cases h
      rfl
  · intro h
    have hab : a = b := by
      cases a
      cases b
      cases h
      rfl
    subst hab
    exact ⟨fun _ _ _ => rfl, fun _ => ⟨rfl, rfl⟩⟩

/-- Witness for C9: two handles with identity 2 are equal, hash alike
under a concrete hasher, and compare alike against identity 5. -/
theorem handle_identity_witness :
    Key.hashWith (fun n m => n * 3 + m) (⟨2⟩ : Key Nat) 7
        = Key.hashWith (fun n m => n * 3 + m) (⟨2⟩ : Key Nat) 7
    ∧ Key.cmp (⟨2⟩ : Key Nat) ⟨5⟩ = Key.cmp (⟨2⟩ : Key Nat) ⟨5⟩ :=
  ⟨((handle_identity (⟨2⟩ : Key Nat) ⟨2⟩).2 rfl).1 Nat (fun n m => n * 3 + m) 7,
    (((handle_identity (⟨2⟩ : Key Nat) ⟨2⟩).2 rfl).2 ⟨5⟩).1⟩

/-- C10: Handle ordering tracks insertion order — `Key.cmp` is a total
order determined by the identity, and along any trace from a new arena
every earlier-minted handle compares strictly less than every
later-minted one. -/
theorem handle_order {T : Type} :
    (∀ a b : Key T, Key.cmp a b = Ordering.eq ↔ a = b)
    ∧ (∀ a b : Key T, Key.cmp a b = Ordering.lt ↔ Key.cmp b a = Ordering.gt)
    ∧ (∀ a b c : Key T, Key.cmp a b = Ordering.lt →
        Key.cmp b c = Ordering.lt → Key.cmp a c = Ordering.lt)
    ∧ (∀ ops : List (Op T),
        (runFrom ops KeyedSet.new).2.Pairwise
          fun a b => Key.cmp a b = Ordering.lt) := by
  refine ⟨?_, ?_, ?_, ?_⟩
  · intro a b
    rw [Key.cmp, Nat.compare_eq_eq]
    constructor
    · intro h
      cases a
      cases b
      cases h
      rfl
    · intro h
      rw [h]
  · intro a b
    rw [Key.cmp, Key.cmp, Nat.compare_eq_lt, Nat.compare_eq_gt]
  · intro a b c hab hbc
    rw [Key.cmp, Nat.compare_eq_lt] at hab hbc ⊢
    exact Nat.lt_trans hab hbc
  · intro ops
    have h : ((runFrom ops (KeyedSet.new : KeyedSet T)).2.map
        Key.identity).Pairwise (· < ·) := by
      rw [runFrom_issued]
      exact List.pairwise_lt_range' _ _
    rw [List.pairwise_map] at h
    exact h.imp fun hx => (Nat.compare_eq_lt).2 hx

/-- Witness for C10: transitivity of the key order at identities 0, 1, 2
and the issue-order comparison on a concrete two-insert trace. -/
theorem handle_order_witness :
    Key.cmp (⟨0⟩ : Key Nat) ⟨2⟩ = Ordering.lt
    ∧ (runFrom [Op.ins 8, Op.ins 9] KeyedSet.new).2.Pairwise
        fun a b => Key.cmp a b = Ordering.lt :=
  ⟨(handle_order (T := Nat)).2.2.1 ⟨0⟩ ⟨1⟩ ⟨2⟩ (by decide) (by decide),
    (handle_order (T := Nat)).2.2.2 [Op.ins 8, Op.ins 9]⟩
